import Mathlib

/-!
Verification of the embedding-based product recommender of the
AI_Lookbook_Studio backend.

The development shallowly embeds the recommendation scoring and selection
pipeline of `backend_py/app/services/pos_recommender.py`,
`backend_py/app/services/db_recommender.py` and
`backend_py/app/routes/recommend_positions.py`:

* vectors, prices and scores are real numbers (`ℝ`); numpy's `-inf`
  sentinel used to exclude seed rows is modelled as `⊥` in `WithBot ℝ`;
* numpy's `mean` of an empty slice (which yields `NaN` without raising)
  is modelled as division by zero, i.e. `0` — none of the statements
  below depend on the numeric value produced in that case, only on the
  fact that no exception is raised;
* the catalog is modelled by its price column (the only field the
  scoring pipeline reads); the output of `recommend` is modelled as the
  list of `(position, score)` pairs — the remaining dict fields are a
  per-position projection of the catalog and carry no extra information;
* `np.argpartition` followed by a sort of the top slice is modelled as
  taking the first `k` entries of the full descending argsort, which the
  route observes identically (same value multiset, sorted descending);
* the route helpers `_diversify_pick`, the rerank merge and the global
  cross-category dedup are embedded parametrically in the item type and
  in the `_signature` / `_key` functions, which URL-parse and tokenise
  strings; every statement proved about them holds for the concrete
  signature and key functions of the source.
-/

namespace Lookbook

/-! ## Shared numeric helpers (numpy operations used by both recommenders) -/

/-- Dot product of two vectors, `np.dot` restricted to equal-length lists. -/
def dot (a b : List ℝ) : ℝ := (a.zipWith (· * ·) b).sum

/-- L2 norm of a vector, `np.linalg.norm`. -/
noncomputable def l2norm (v : List ℝ) : ℝ := Real.sqrt ((v.map (· ^ 2)).sum)

/-- Division of a vector by its L2 norm, substituting `1e-8` for a zero
norm, as in `pos_recommender.py` lines 47-49 and 94-97. -/
noncomputable def normalizeVec (v : List ℝ) : List ℝ :=
  let n := l2norm v
  let n := if n = 0 then 1e-8 else n
  v.map (· / n)

/-- Columnwise mean of a list of rows, `rows.mean(axis=0)` for a matrix of
width `dim`; the mean of an empty slice (NaN in numpy, no exception) is
modelled as the zero vector. -/
noncomputable def meanVec (dim : ℕ) (rows : List (List ℝ)) : List ℝ :=
  (List.range dim).map (fun j => ((rows.map (fun r => r.getD j 0)).sum) / rows.length)

/-- Mean of a list of reals, `arr.mean()`. -/
noncomputable def listMean (l : List ℝ) : ℝ := l.sum / l.length

/-- Price-distance term of the blended score,
`np.exp(-alpha * np.abs(np.log1p(price) - np.log1p(qprice)))` from
`pos_recommender.py` lines 104-106 and `db_recommender.py` lines 270-272;
`np.log1p x = log (1 + x)`. -/
noncomputable def priceScoreTerm (alpha price qprice : ℝ) : ℝ :=
  Real.exp (-(alpha * |Real.log (1 + price) - Real.log (1 + qprice)|))

/-- Blended total `w1 * sim + w2 * price_score`, elementwise
(`pos_recommender.py` line 109, `db_recommender.py` line 275). -/
noncomputable def blend (w1 w2 : ℝ) (sim ps : List ℝ) : List ℝ :=
  sim.zipWith (fun si pi => w1 * si + w2 * pi) ps

/-! ## Top-k selection

`total[np.array(positions)] = -np.inf` followed by `argsort`/`argpartition`
(`pos_recommender.py` lines 110-117, `db_recommender.py` lines 307-313).
`-inf` is `⊥ : WithBot ℝ`; the `k < n` partial-selection branch returns the
`k` largest entries sorted descending, i.e. the first `k` entries of the
full descending argsort. -/

/-- Entries of the score array after the seed positions are forced to
`-inf` (`⊥`). -/
noncomputable def excludeSeeds (total : List ℝ) (pos : List ℕ) (n : ℕ) : List (WithBot ℝ) :=
  (List.range n).map (fun i => if i ∈ pos then (⊥ : WithBot ℝ) else (total.getD i 0 : ℝ))

/-- Indices of `t` sorted by descending value, `np.argsort(-total)`. -/
noncomputable def argsortDesc (t : List (WithBot ℝ)) : List ℕ :=
  (List.range t.length).mergeSort (fun i j => decide (t.getD j ⊥ ≤ t.getD i ⊥))

/-- Top-k rows by descending score together with their scores: the common
tail of both `recommend` implementations (`argsort` for `k >= n`,
`argpartition` + sort of the top slice for `k < n`, with the dict fields
looked up per returned index). -/
noncomputable def selectTopK (t : List (WithBot ℝ)) (k : ℕ) : List (ℕ × WithBot ℝ) :=
  ((argsortDesc t).take k).map (fun i => (i, t.getD i ⊥))

/-! ## PosRecommender (`backend_py/app/services/pos_recommender.py`) -/

/-- In-memory state of `PosRecommender` after `_load_if_available`. -/
structure PosState where
  embNorm : Option (List (List ℝ))
  prices : Option (List ℝ)
  count : ℕ
  dim : ℕ

/-- The in-memory part of `PosRecommender._load_if_available` (lines
39-61): normalize every embedding row, then align with the catalog price
column; a length mismatch marks the state unavailable (all fields reset).
The I/O failure branches (missing file, `np.load` error) produce the same
unavailable state and are not modelled separately. -/
noncomputable def loadIfAvailable (emb : List (List ℝ)) (catalogPrices : List ℤ) : PosState :=
  let count := emb.length
  let dim := (emb.headD []).length
  let embNorm := emb.map normalizeVec
  if catalogPrices.length ≠ count then
    { embNorm := none, prices := none, count := 0, dim := dim }
  else
    { embNorm := some embNorm, prices := some (catalogPrices.map (fun p => (p : ℝ))),
      count := count, dim := dim }

/-- `PosRecommender.available` (lines 68-69). -/
def PosState.available (s : PosState) : Bool :=
  s.embNorm.isSome && s.prices.isSome && decide (0 < s.count)

/-- Score array of `PosRecommender.recommend` (lines 92-109): query vector
is the renormalized mean of the seed rows, the price anchor is the mean
price of the seed set. -/
noncomputable def posTotals (embNorm : List (List ℝ)) (prices : List ℝ) (dim : ℕ)
    (pos : List ℕ) (alpha w1 w2 : ℝ) : List ℝ :=
  let q := normalizeVec (meanVec dim (pos.map (fun p => embNorm.getD p [])))
  let sim := embNorm.map (fun row => dot row q)
  let qprice := listMean (pos.map (fun p => prices.getD p 0))
  let ps := prices.map (fun p => priceScoreTerm alpha p qprice)
  blend w1 w2 sim ps

/-- `PosRecommender.recommend` (lines 71-134): availability check, seed
validation, pool-size clamp `k = max(1, min(top_k, n))`, scoring, seed
exclusion and top-k selection.  The output is the list of
`(position, score)` pairs in returned order. -/
noncomputable def PosState.recommend (s : PosState) (positions : List ℤ) (top_k : ℤ)
    (alpha w1 w2 : ℝ) : Except String (List (ℕ × WithBot ℝ)) :=
  if s.available then
    match s.embNorm, s.prices with
    | some embNorm, some prices =>
      let n : ℕ := s.count
      if positions.any (fun p => p < 0 || (n : ℤ) ≤ p) then
        .error "positions out of range"
      else
        let k : ℕ := (max 1 (min top_k (n : ℤ))).toNat
        let pos := positions.map Int.toNat
        let total := posTotals embNorm prices s.dim pos alpha w1 w2
        .ok (selectTopK (excludeSeeds total pos n) k)
    | _, _ => .error "PosRecommender not available (missing embeddings or catalog mismatch)"
  else .error "PosRecommender not available (missing embeddings or catalog mismatch)"

/-! ## DbPosRecommender (`backend_py/app/services/db_recommender.py`) -/

/-- In-memory state of `DbPosRecommender` after `_load_all`; the product
table is modelled by its price column (`prices` is built from it on line
237) and its length `nproducts`. -/
structure DbState where
  embNorm : Option (List (List ℝ))
  prices : Option (List ℝ)
  nproducts : ℕ
  dim : ℕ

/-- `DbPosRecommender.available` (lines 239-240). -/
def DbState.available (s : DbState) : Bool :=
  s.embNorm.isSome && decide (0 < s.nproducts)

/-- `DbPosRecommender._calculate_similarity_scores` (lines 242-277): the
price anchor is `avg_price = prices.mean()`, the mean price of the whole
catalog, for every query.  The function is only called with the state
fields populated; the impossible `none` case returns `[]`. -/
noncomputable def calculateSimilarityScores (s : DbState) (queryVec : List ℝ)
    (alpha w1 w2 : ℝ) : List ℝ :=
  match s.embNorm, s.prices with
  | some embNorm, some prices =>
    let sim := embNorm.map (fun row => dot row queryVec)
    let avgPrice := listMean prices
    let ps := prices.map (fun p => priceScoreTerm alpha p avgPrice)
    blend w1 w2 sim ps
  | _, _ => []

/-- `DbPosRecommender.recommend` (lines 279-320): same validation, clamp,
exclusion and selection as `PosRecommender.recommend`, but the scores come
from `_calculate_similarity_scores` (catalog-mean price anchor). -/
noncomputable def DbState.recommend (s : DbState) (positions : List ℤ) (top_k : ℤ)
    (alpha w1 w2 : ℝ) : Except String (List (ℕ × WithBot ℝ)) :=
  if s.available then
    match s.embNorm, s.prices with
    | some embNorm, some _ =>
      let n : ℕ := s.nproducts
      if positions.any (fun p => p < 0 || (n : ℤ) ≤ p) then
        .error "positions out of range"
      else
        let k : ℕ := (max 1 (min top_k (n : ℤ))).toNat
        let pos := positions.map Int.toNat
        let q := normalizeVec (meanVec s.dim (pos.map (fun p => embNorm.getD p [])))
        let total := calculateSimilarityScores s q alpha w1 w2
        .ok (selectTopK (excludeSeeds total pos n) k)
    | _, _ => .error "DbPosRecommender unavailable"
  else .error "DbPosRecommender unavailable"

/-! ## Selection-layer lemmas -/

theorem argsortDesc_perm (t : List (WithBot ℝ)) :
    (argsortDesc t).Perm (List.range t.length) :=
  List.mergeSort_perm _ _

theorem argsortDesc_length (t : List (WithBot ℝ)) :
    (argsortDesc t).length = t.length := by
  simpa using (argsortDesc_perm t).length_eq

theorem mem_argsortDesc {t : List (WithBot ℝ)} {i : ℕ} :
    i ∈ argsortDesc t ↔ i < t.length := by
  rw [(argsortDesc_perm t).mem_iff, List.mem_range]

theorem argsortDesc_sorted (t : List (WithBot ℝ)) :
    (argsortDesc t).Pairwise (fun i j => t.getD j ⊥ ≤ t.getD i ⊥) := by
  have h := @List.sorted_mergeSort ℕ
    (fun i j => decide (t.getD j ⊥ ≤ t.getD i ⊥))
    (fun a b c hab hbc => by
      simp only [decide_eq_true_eq] at hab hbc ⊢
      exact le_trans hbc hab)
    (fun a b => by
      simpa using le_total (t.getD b ⊥) (t.getD a ⊥))
    (List.range t.length)
  refine (List.Pairwise.imp ?_ h)
  intro a b hab
  simpa using hab

theorem excludeSeeds_length (total : List ℝ) (pos : List ℕ) (n : ℕ) :
    (excludeSeeds total pos n).length = n := by
  simp [excludeSeeds]

theorem excludeSeeds_getD (total : List ℝ) (pos : List ℕ) {n i : ℕ} (h : i < n) :
    (excludeSeeds total pos n).getD i ⊥ =
      if i ∈ pos then (⊥ : WithBot ℝ) else (total.getD i 0 : ℝ) := by
  rw [excludeSeeds, List.getD_eq_getElem?_getD, List.getElem?_map, List.getElem?_range h]
  rfl

/-- Entries in the first `k` slots of a descending-sorted index list are
non-`⊥` as long as at least `k` entries of the whole list are non-`⊥`. -/
theorem take_ne_bot_of_sorted (v : ℕ → WithBot ℝ) :
    ∀ (l : List ℕ) (k : ℕ), l.Pairwise (fun i j => v j ≤ v i) →
      k ≤ l.countP (fun i => decide (v i ≠ ⊥)) → ∀ i ∈ l.take k, v i ≠ ⊥ := by
  intro l
  induction l with
  | nil => intro k _ _ i hi; simp at hi
  | cons a rest ih =>
    intro k hp hk i hi
    rcases Nat.eq_zero_or_pos k with hk0 | hkpos
    · subst hk0; simp at hi
    have hpa := (List.pairwise_cons.mp hp).1
    have hprest := (List.pairwise_cons.mp hp).2
    by_cases hva : v a = ⊥
    · exfalso
      have hrest0 : rest.countP (fun i => decide (v i ≠ ⊥)) = 0 := by
        apply List.countP_eq_zero.mpr
        intro x hx
        have hxa : v x ≤ v a := hpa x hx
        rw [hva] at hxa
        simp [le_bot_iff.mp hxa]
      rw [List.countP_cons, hrest0] at hk
      simp [hva] at hk
      omega
    · obtain ⟨k', rfl⟩ := Nat.exists_eq_succ_of_ne_zero (Nat.pos_iff_ne_zero.mp hkpos)
      rw [List.take_succ_cons] at hi
      rcases List.mem_cons.mp hi with rfl | hi'
      · exact hva
      · refine ih k' hprest ?_ i hi'
        rw [List.countP_cons] at hk
        simp only [ne_eq, decide_not] at hk ⊢
        simp [hva] at hk
        omega

/-- Distinct members of `pos` below `n`, counted inside `range n`. -/
theorem countP_range_mem (pos : List ℕ) (n : ℕ) (hb : ∀ x ∈ pos, x < n) :
    (List.range n).countP (fun i => decide (i ∈ pos)) = pos.dedup.length := by
  rw [List.countP_eq_length_filter]
  have hnd : ((List.range n).filter (fun i => decide (i ∈ pos))).Nodup :=
    (List.nodup_range n).filter _
  have hperm : ((List.range n).filter (fun i => decide (i ∈ pos))).Perm pos.dedup := by
    rw [List.perm_ext_iff_of_nodup hnd pos.nodup_dedup]
    intro x
    simp only [List.mem_filter, List.mem_range, decide_eq_true_eq, List.mem_dedup]
    constructor
    · rintro ⟨_, hx⟩; exact hx
    · intro hx; exact ⟨hb x hx, hx⟩
  exact hperm.length_eq

theorem selectTopK_length (t : List (WithBot ℝ)) (k : ℕ) :
    (selectTopK t k).length = min k t.length := by
  simp [selectTopK, argsortDesc_length]

theorem selectTopK_scores_sorted (t : List (WithBot ℝ)) (k : ℕ) :
    ((selectTopK t k).map Prod.snd).Pairwise (fun a b => b ≤ a) := by
  rw [selectTopK, List.map_map]
  have hs : ((argsortDesc t).take k).Pairwise (fun i j => t.getD j ⊥ ≤ t.getD i ⊥) :=
    List.Pairwise.sublist (List.take_sublist k (argsortDesc t)) (argsortDesc_sorted t)
  rw [List.pairwise_map]
  exact hs

theorem selectTopK_mem {t : List (WithBot ℝ)} {k : ℕ} {pr : ℕ × WithBot ℝ}
    (h : pr ∈ selectTopK t k) : pr.1 < t.length ∧ pr.2 = t.getD pr.1 ⊥ := by
  rw [selectTopK, List.mem_map] at h
  obtain ⟨i, hi, rfl⟩ := h
  have : i ∈ argsortDesc t := List.Sublist.subset (List.take_sublist k _) hi
  exact ⟨mem_argsortDesc.mp this, rfl⟩

theorem countP_range_getD (t : List (WithBot ℝ)) :
    (List.range t.length).countP (fun i => decide (t.getD i ⊥ ≠ ⊥))
      = t.countP (fun x => decide (x ≠ ⊥)) := by
  induction t using List.reverseRecOn with
  | nil => simp
  | append_singleton t x iht =>
    rw [List.length_append, List.length_singleton, List.range_succ, List.countP_append,
      List.countP_append]
    have h1 : (List.range t.length).countP
        (fun i => decide ((t ++ [x]).getD i ⊥ ≠ ⊥)) =
        (List.range t.length).countP (fun i => decide (t.getD i ⊥ ≠ ⊥)) := by
      apply List.countP_congr
      intro i hi
      rw [List.mem_range] at hi
      simp only [List.getD_eq_getElem?_getD]
      rw [List.getElem?_append_left hi]
    have hx : (t ++ [x]).getD t.length ⊥ = x := by
      rw [List.getD_eq_getElem?_getD, List.getElem?_append_right (le_refl _)]
      simp
    rw [h1, iht]
    simp [List.countP_cons, hx]

theorem selectTopK_ne_bot {t : List (WithBot ℝ)} {k : ℕ}
    (hk : k ≤ t.countP (fun x => decide (x ≠ ⊥))) :
    ∀ pr ∈ selectTopK t k, t.getD pr.1 ⊥ ≠ ⊥ := by
  intro pr hpr
  rw [selectTopK, List.mem_map] at hpr
  obtain ⟨i, hi, rfl⟩ := hpr
  refine take_ne_bot_of_sorted (fun i => t.getD i ⊥) (argsortDesc t) k
    (argsortDesc_sorted t) ?_ i hi
  rw [(argsortDesc_perm t).countP_eq, countP_range_getD]
  exact hk

theorem selectTopK_fst_perm (t : List (WithBot ℝ)) (hk : k = t.length) :
    ((selectTopK t k).map Prod.fst).Perm (List.range t.length) := by
  subst hk
  rw [selectTopK, List.map_map]
  have h1 : (argsortDesc t).take t.length = argsortDesc t := by
    apply List.take_of_length_le
    rw [argsortDesc_length]
  rw [h1]
  have : (Prod.fst ∘ fun i => ((i : ℕ), t.getD i ⊥)) = id := rfl
  rw [this, List.map_id]
  exact argsortDesc_perm t

/-! ## Claim theorems: price score (C7) and fail-closed loading (C8) -/

/-- C7: for every `alpha ≥ 0` and non-negative prices, the price score
`exp(-alpha * |log1p price - log1p qprice|)` lies in `(0, 1]`, and equals
`1` exactly when `alpha = 0` or `price = qprice`. -/
theorem priceScoreTerm_bounds (alpha price qprice : ℝ)
    (ha : 0 ≤ alpha) (hp : 0 ≤ price) (hq : 0 ≤ qprice) :
    (0 < priceScoreTerm alpha price qprice ∧ priceScoreTerm alpha price qprice ≤ 1) ∧
      (priceScoreTerm alpha price qprice = 1 ↔ alpha = 0 ∨ price = qprice) := by
  constructor
  · refine ⟨Real.exp_pos _, ?_⟩
    rw [priceScoreTerm, Real.exp_le_one_iff]
    have h0 : 0 ≤ alpha * |Real.log (1 + price) - Real.log (1 + qprice)| :=
      mul_nonneg ha (abs_nonneg _)
    linarith
  · rw [priceScoreTerm, Real.exp_eq_one_iff, neg_eq_zero, mul_eq_zero, abs_eq_zero,
      sub_eq_zero]
    constructor
    · rintro (h | h)
      · exact Or.inl h
      · right
        have h1p : (1 + price) ∈ Set.Ioi (0:ℝ) := Set.mem_Ioi.mpr (by linarith)
        have h1q : (1 + qprice) ∈ Set.Ioi (0:ℝ) := Set.mem_Ioi.mpr (by linarith)
        have := Real.log_injOn_pos h1p h1q h
        linarith
    · rintro (h | h)
      · exact Or.inl h
      · right; rw [h]

theorem priceScoreTerm_bounds_witness :
    (0:ℝ) ≤ 0 ∧
      ((0 < priceScoreTerm 0 2 3 ∧ priceScoreTerm 0 2 3 ≤ 1) ∧
        (priceScoreTerm 0 2 3 = 1 ↔ (0:ℝ) = 0 ∨ (2:ℝ) = 3)) :=
  ⟨le_refl 0, priceScoreTerm_bounds 0 2 3 (le_refl 0) (by norm_num) (by norm_num)⟩

/-- C8: a catalog/embedding length mismatch makes the recommender
permanently unavailable — `available` is `false` and every `recommend`
call raises the unavailability error, never returning a partial result. -/
theorem mismatch_fail_closed (emb : List (List ℝ)) (catalogPrices : List ℤ)
    (h : catalogPrices.length ≠ emb.length) :
    (loadIfAvailable emb catalogPrices).available = false ∧
      ∀ (positions : List ℤ) (top_k : ℤ) (alpha w1 w2 : ℝ),
        (loadIfAvailable emb catalogPrices).recommend positions top_k alpha w1 w2 =
          .error "PosRecommender not available (missing embeddings or catalog mismatch)" := by
  have hs : loadIfAvailable emb catalogPrices =
      { embNorm := none, prices := none, count := 0, dim := (emb.headD []).length } := by
    rw [loadIfAvailable]
    simp [h]
  refine ⟨by rw [hs]; rfl, ?_⟩
  intro positions top_k alpha w1 w2
  rw [hs, PosState.recommend]
  rfl

theorem mismatch_fail_closed_witness :
    ([] : List ℤ).length ≠ ([[(1:ℝ)]] : List (List ℝ)).length ∧
      ((loadIfAvailable [[(1:ℝ)]] []).available = false ∧
        ∀ (positions : List ℤ) (top_k : ℤ) (alpha w1 w2 : ℝ),
          (loadIfAvailable [[(1:ℝ)]] []).recommend positions top_k alpha w1 w2 =
            .error "PosRecommender not available (missing embeddings or catalog mismatch)") :=
  ⟨by decide, mismatch_fail_closed [[(1:ℝ)]] [] (by decide)⟩

theorem selectTopK_map_fst (t : List (WithBot ℝ)) (k : ℕ) :
    (selectTopK t k).map Prod.fst = (argsortDesc t).take k := by
  rw [selectTopK, List.map_map]
  have h : (Prod.fst ∘ fun i => ((i : ℕ), t.getD i ⊥)) = id := rfl
  rw [h, List.map_id]

/-- Success-branch shape of `PosRecommender.recommend`. -/
theorem posRecommend_eq_ok (s : PosState) {embNorm : List (List ℝ)} {prices : List ℝ}
    (he : s.embNorm = some embNorm) (hpr : s.prices = some prices)
    (hav : s.available = true) (positions : List ℤ) (top_k : ℤ) (alpha w1 w2 : ℝ)
    (hval : positions.any (fun p => p < 0 || (s.count : ℤ) ≤ p) = false) :
    s.recommend positions top_k alpha w1 w2 =
      .ok (selectTopK
        (excludeSeeds (posTotals embNorm prices s.dim (positions.map Int.toNat) alpha w1 w2)
          (positions.map Int.toNat) s.count)
        ((max 1 (min top_k (s.count : ℤ))).toNat)) := by
  rw [PosState.recommend, he, hpr, hav]
  simp only [if_true]
  rw [hval]
  simp

/-- Success-branch shape of `DbPosRecommender.recommend`. -/
theorem dbRecommend_eq_ok (s : DbState) {embNorm : List (List ℝ)} {prices : List ℝ}
    (he : s.embNorm = some embNorm) (hpr : s.prices = some prices)
    (hav : s.available = true) (positions : List ℤ) (top_k : ℤ) (alpha w1 w2 : ℝ)
    (hval : positions.any (fun p => p < 0 || (s.nproducts : ℤ) ≤ p) = false) :
    s.recommend positions top_k alpha w1 w2 =
      .ok (selectTopK
        (excludeSeeds
          (calculateSimilarityScores s
            (normalizeVec (meanVec s.dim ((positions.map Int.toNat).map
              (fun p => embNorm.getD p []))))
            alpha w1 w2)
          (positions.map Int.toNat) s.nproducts)
        ((max 1 (min top_k (s.nproducts : ℤ))).toNat)) := by
  rw [DbState.recommend, he, hpr, hav]
  simp only [if_true]
  rw [hval]
  simp

theorem posAvailable_elim {s : PosState} (hav : s.available = true) :
    (∃ embNorm, s.embNorm = some embNorm) ∧ (∃ prices, s.prices = some prices) ∧
      0 < s.count := by
  rw [PosState.available, Bool.and_eq_true, Bool.and_eq_true] at hav
  refine ⟨Option.isSome_iff_exists.mp hav.1.1, Option.isSome_iff_exists.mp hav.1.2, ?_⟩
  simpa using hav.2

theorem validation_false {positions : List ℤ} {n : ℕ}
    (hvalid : ∀ p ∈ positions, 0 ≤ p ∧ p < (n : ℤ)) :
    positions.any (fun p => p < 0 || (n : ℤ) ≤ p) = false := by
  rw [List.any_eq_false]
  intro p hp
  have h := hvalid p hp
  simp only [Bool.or_eq_true, decide_eq_true_eq, not_or]
  omega

theorem countP_excludeSeeds (total : List ℝ) (pos : List ℕ) (n : ℕ)
    (hb : ∀ x ∈ pos, x < n) :
    (excludeSeeds total pos n).countP (fun x => decide (x ≠ ⊥)) = n - pos.dedup.length := by
  rw [excludeSeeds, List.countP_map]
  have hcong : (List.range n).countP
      ((fun x => decide (x ≠ ⊥)) ∘ fun i => if i ∈ pos then (⊥ : WithBot ℝ)
        else (total.getD i 0 : ℝ)) =
      (List.range n).countP (fun i => !decide (i ∈ pos)) := by
    apply List.countP_congr
    intro i _
    by_cases h : i ∈ pos <;> simp [h]
  rw [hcong]
  have hsplit := List.length_eq_countP_add_countP (fun i => decide (i ∈ pos)) (List.range n)
  have hneg : (List.range n).countP (fun a => decide (¬(fun i => decide (i ∈ pos)) a = true)) =
      (List.range n).countP (fun i => !decide (i ∈ pos)) := by
    apply List.countP_congr
    intro i _
    by_cases h : i ∈ pos <;> simp [h]
  rw [hneg, List.length_range, countP_range_mem pos n hb] at hsplit
  omega

/-- C1 (amended): for every available recommender and valid seed set, no
seed position appears in the returned list provided the clamped pool size
`k = max(1, min(top_k, N))` is at most `N` minus the number of distinct
seed positions; when `top_k ≥ N` the returned list instead contains every
row of the catalog — the seed rows included (carrying score `-inf`). -/
theorem posRecommend_seed_exclusion (s : PosState) (positions : List ℤ) (top_k : ℤ)
    (alpha w1 w2 : ℝ) (hav : s.available = true)
    (hvalid : ∀ p ∈ positions, 0 ≤ p ∧ p < (s.count : ℤ)) :
    ∃ out, s.recommend positions top_k alpha w1 w2 = .ok out ∧
      ((max 1 (min top_k (s.count : ℤ))).toNat
          ≤ s.count - (positions.map Int.toNat).dedup.length →
        ∀ pr ∈ out, pr.1 ∉ positions.map Int.toNat) ∧
      ((s.count : ℤ) ≤ top_k → (out.map Prod.fst).Perm (List.range s.count)) := by
  obtain ⟨⟨embNorm, he⟩, ⟨prices, hpr⟩, hc⟩ := posAvailable_elim hav
  have hval := validation_false hvalid
  have hb : ∀ x ∈ positions.map Int.toNat, x < s.count := by
    intro x hx
    rw [List.mem_map] at hx
    obtain ⟨p, hp, rfl⟩ := hx
    have := hvalid p hp
    omega
  refine ⟨_, posRecommend_eq_ok s he hpr hav positions top_k alpha w1 w2 hval, ?_, ?_⟩
  · intro hk pr hpr'
    have hne := @selectTopK_ne_bot (excludeSeeds
        (posTotals embNorm prices s.dim (positions.map Int.toNat) alpha w1 w2)
        (positions.map Int.toNat) s.count)
      ((max 1 (min top_k (s.count : ℤ))).toNat)
      (by rw [countP_excludeSeeds _ _ _ hb]; exact hk) pr hpr'
    intro hmem
    have hlt : pr.1 < s.count := by
      have := (selectTopK_mem hpr').1
      rwa [excludeSeeds_length] at this
    rw [excludeSeeds_getD _ _ hlt] at hne
    simp [hmem] at hne
  · intro htop
    have hkn : ((max 1 (min top_k (s.count : ℤ))).toNat) = s.count := by omega
    rw [hkn]
    have hlen : (excludeSeeds
        (posTotals embNorm prices s.dim (positions.map Int.toNat) alpha w1 w2)
        (positions.map Int.toNat) s.count).length = s.count := excludeSeeds_length _ _ _
    have := selectTopK_fst_perm (excludeSeeds
        (posTotals embNorm prices s.dim (positions.map Int.toNat) alpha w1 w2)
        (positions.map Int.toNat) s.count) hlen.symm
    rwa [hlen] at this

theorem posRecommend_seed_exclusion_witness :
    (loadIfAvailable [[(1:ℝ),0],[0,1],[1,1]] [5,7,9]).available = true ∧
      (∀ p ∈ ([0] : List ℤ), 0 ≤ p ∧
        p < ((loadIfAvailable [[(1:ℝ),0],[0,1],[1,1]] [5,7,9]).count : ℤ)) ∧
      ∃ out, (loadIfAvailable [[(1:ℝ),0],[0,1],[1,1]] [5,7,9]).recommend [0] 1 1 1 0 =
          .ok out ∧
        ((max 1 (min 1 ((loadIfAvailable [[(1:ℝ),0],[0,1],[1,1]] [5,7,9]).count : ℤ))).toNat
            ≤ (loadIfAvailable [[(1:ℝ),0],[0,1],[1,1]] [5,7,9]).count -
              (([0] : List ℤ).map Int.toNat).dedup.length →
          ∀ pr ∈ out, pr.1 ∉ (([0] : List ℤ)).map Int.toNat) ∧
        (((loadIfAvailable [[(1:ℝ),0],[0,1],[1,1]] [5,7,9]).count : ℤ) ≤ 1 →
          (out.map Prod.fst).Perm
            (List.range (loadIfAvailable [[(1:ℝ),0],[0,1],[1,1]] [5,7,9]).count)) := by
  have h1 : (loadIfAvailable [[(1:ℝ),0],[0,1],[1,1]] [5,7,9]).available = true := by
    simp [loadIfAvailable, PosState.available]
  have h2 : ∀ p ∈ ([0] : List ℤ), 0 ≤ p ∧
      p < ((loadIfAvailable [[(1:ℝ),0],[0,1],[1,1]] [5,7,9]).count : ℤ) := by
    intro p hp
    simp only [List.mem_singleton] at hp
    subst hp
    simp [loadIfAvailable]
  exact ⟨h1, h2, posRecommend_seed_exclusion _ [0] 1 1 1 0 h1 h2⟩

/-- C1 counterexample: with a 2-row catalog, seed set `{0}` and
`top_k = 2 ≥ N`, the returned list contains the seed position `0` itself
(at score `-inf`), contradicting both "no seed position appears" and
"the result is every non-seed row". -/
theorem posRecommend_seed_in_output :
    (0 : ℕ) ∈ (((loadIfAvailable [[(1:ℝ),0],[0,1]] [5,7]).recommend [0] 2 1 1 0).toOption.getD
        []).map Prod.fst := by
  have he : (loadIfAvailable [[(1:ℝ),0],[0,1]] [5,7]).embNorm =
      some ([[(1:ℝ),0],[0,1]].map normalizeVec) := by
    simp [loadIfAvailable]
  have hpr : (loadIfAvailable [[(1:ℝ),0],[0,1]] [5,7]).prices =
      some (([5,7] : List ℤ).map (fun p => (p : ℝ))) := by
    simp [loadIfAvailable]
  have hav : (loadIfAvailable [[(1:ℝ),0],[0,1]] [5,7]).available = true := by
    simp [loadIfAvailable, PosState.available]
  have hcount : (loadIfAvailable [[(1:ℝ),0],[0,1]] [5,7]).count = 2 := by
    simp [loadIfAvailable]
  have hval : ([0] : List ℤ).any
      (fun p => p < 0 || ((loadIfAvailable [[(1:ℝ),0],[0,1]] [5,7]).count : ℤ) ≤ p) = false := by
    rw [hcount]
    decide
  rw [posRecommend_eq_ok _ he hpr hav [0] 2 1 1 0 hval]
  rw [hcount]
  simp only [Except.toOption, Option.getD, selectTopK_map_fst]
  have hk : ((max 1 (min 2 ((2:ℕ) : ℤ))).toNat) = 2 := by decide
  rw [hk]
  have hlen : (excludeSeeds
      (posTotals ([[(1:ℝ),0],[0,1]].map normalizeVec) (([5,7] : List ℤ).map (fun p => (p : ℝ)))
        (loadIfAvailable [[(1:ℝ),0],[0,1]] [5,7]).dim (([0] : List ℤ).map Int.toNat) 1 1 0)
      (([0] : List ℤ).map Int.toNat) 2).length = 2 := excludeSeeds_length _ _ _
  rw [List.take_of_length_le (by rw [argsortDesc_length, hlen])]
  exact mem_argsortDesc.mpr (by rw [hlen]; omega)

theorem dbAvailable_elim {s : DbState} (hav : s.available = true) :
    (∃ embNorm, s.embNorm = some embNorm) ∧ 0 < s.nproducts := by
  rw [DbState.available, Bool.and_eq_true] at hav
  refine ⟨Option.isSome_iff_exists.mp hav.1, ?_⟩
  simpa using hav.2

/-- C10: for every available recommender, valid non-empty seed set and any
integer `top_k` (including `top_k ≤ 0` and `top_k > N`), `recommend`
raises no error and returns exactly `min(max(1, top_k), N)` items: the
requested pool size is silently clamped to `[1, N]`. -/
theorem recommend_topk_clamped (s : PosState) (d : DbState) (positions : List ℤ)
    (top_k : ℤ) (alpha w1 w2 : ℝ)
    (hav : s.available = true) (hdav : d.available = true)
    (hdpr : ∃ dprices, d.prices = some dprices)
    (hvalid : ∀ p ∈ positions, 0 ≤ p ∧ p < (s.count : ℤ))
    (hdvalid : ∀ p ∈ positions, 0 ≤ p ∧ p < (d.nproducts : ℤ))
    (hne : positions ≠ []) :
    (∃ out, s.recommend positions top_k alpha w1 w2 = .ok out ∧
      (out.length : ℤ) = min (max 1 top_k) (s.count : ℤ)) ∧
    (∃ out, d.recommend positions top_k alpha w1 w2 = .ok out ∧
      (out.length : ℤ) = min (max 1 top_k) (d.nproducts : ℤ)) := by
  obtain ⟨⟨embNorm, he⟩, ⟨prices, hpr⟩, hc⟩ := posAvailable_elim hav
  obtain ⟨⟨dEmbNorm, hde⟩, hdc⟩ := dbAvailable_elim hdav
  obtain ⟨dprices, hdp⟩ := hdpr
  constructor
  · refine ⟨_, posRecommend_eq_ok s he hpr hav positions top_k alpha w1 w2
      (validation_false hvalid), ?_⟩
    rw [selectTopK_length, excludeSeeds_length]
    omega
  · refine ⟨_, dbRecommend_eq_ok d hde hdp hdav positions top_k alpha w1 w2
      (validation_false hdvalid), ?_⟩
    rw [selectTopK_length, excludeSeeds_length]
    omega

theorem recommend_topk_clamped_witness :
    (loadIfAvailable [[(1:ℝ)],[0]] [5,7]).available = true ∧
      (DbState.mk (some [[(1:ℝ)],[0]]) (some [5,7]) 2 1).available = true ∧
      (∃ dprices, (DbState.mk (some [[(1:ℝ)],[0]]) (some [5,7]) 2 1).prices = some dprices) ∧
      (∀ p ∈ ([1] : List ℤ), 0 ≤ p ∧
        p < ((loadIfAvailable [[(1:ℝ)],[0]] [5,7]).count : ℤ)) ∧
      (∀ p ∈ ([1] : List ℤ), 0 ≤ p ∧
        p < ((DbState.mk (some [[(1:ℝ)],[0]]) (some [5,7]) 2 1).nproducts : ℤ)) ∧
      ([1] : List ℤ) ≠ [] ∧
      ((∃ out, (loadIfAvailable [[(1:ℝ)],[0]] [5,7]).recommend [1] 100 1 1 0 = .ok out ∧
        (out.length : ℤ) =
          min (max 1 100) ((loadIfAvailable [[(1:ℝ)],[0]] [5,7]).count : ℤ)) ∧
      (∃ out, (DbState.mk (some [[(1:ℝ)],[0]]) (some [5,7]) 2 1).recommend [1] 100 1 1 0 =
          .ok out ∧
        (out.length : ℤ) =
          min (max 1 100)
            ((DbState.mk (some [[(1:ℝ)],[0]]) (some [5,7]) 2 1).nproducts : ℤ))) := by
  have h1 : (loadIfAvailable [[(1:ℝ)],[0]] [5,7]).available = true := by
    simp [loadIfAvailable, PosState.available]
  have h2 : (DbState.mk (some [[(1:ℝ)],[0]]) (some [5,7]) 2 1).available = true := rfl
  have h3 : ∃ dprices, (DbState.mk (some [[(1:ℝ)],[0]]) (some [5,7]) 2 1).prices =
      some dprices := ⟨_, rfl⟩
  have h4 : ∀ p ∈ ([1] : List ℤ), 0 ≤ p ∧
      p < ((loadIfAvailable [[(1:ℝ)],[0]] [5,7]).count : ℤ) := by
    intro p hp
    simp only [List.mem_singleton] at hp
    subst hp
    simp [loadIfAvailable]
  have h5 : ∀ p ∈ ([1] : List ℤ), 0 ≤ p ∧
      p < ((DbState.mk (some [[(1:ℝ)],[0]]) (some [5,7]) 2 1).nproducts : ℤ) := by
    intro p hp
    simp only [List.mem_singleton] at hp
    subst hp
    norm_num
  have h6 : ([1] : List ℤ) ≠ [] := by decide
  exact ⟨h1, h2, h3, h4, h5, h6,
    recommend_topk_clamped _ _ [1] 100 1 1 0 h1 h2 h3 h4 h5 h6⟩

theorem except_snd_sorted {e : Except String (List (ℕ × WithBot ℝ))}
    (h : ∀ out, e = .ok out → (out.map Prod.snd).Pairwise (fun a b => b ≤ a)) :
    ((e.toOption.getD []).map Prod.snd).Pairwise (fun a b => b ≤ a) := by
  cases e with
  | error m => simp [Except.toOption]
  | ok out => simpa [Except.toOption] using h out rfl

/-- C5 (amended): every list returned by the retrievers (no LLM rerank
involved) is sorted descending by score.  The per-category final lists of
the route are NOT always sorted — see the counterexample — because the
second pass of `_diversify_pick` appends signature-skipped items after
lower-scored ones. -/
theorem recommend_scores_sorted (s : PosState) (d : DbState) (positions : List ℤ)
    (top_k : ℤ) (alpha w1 w2 : ℝ) :
    (((s.recommend positions top_k alpha w1 w2).toOption.getD []).map Prod.snd).Pairwise
        (fun a b => b ≤ a) ∧
      (((d.recommend positions top_k alpha w1 w2).toOption.getD []).map Prod.snd).Pairwise
        (fun a b => b ≤ a) := by
  constructor
  · apply except_snd_sorted
    intro out hout
    rw [PosState.recommend] at hout
    split at hout
    · split at hout
      · simp only [] at hout
        split at hout
        · cases hout
        · injection hout with hout
          subst hout
          exact selectTopK_scores_sorted _ _
      · cases hout
    · cases hout
  · apply except_snd_sorted
    intro out hout
    rw [DbState.recommend] at hout
    split at hout
    · split at hout
      · simp only [] at hout
        split at hout
        · cases hout
        · injection hout with hout
          subst hout
          exact selectTopK_scores_sorted _ _
      · cases hout
    · cases hout

/-- C9 (amended): for every available recommender, a seed position outside
`[0, N)` is rejected with the input error; an EMPTY seed-position list,
however, is not rejected — `recommend` silently proceeds (numpy's mean of
an empty slice yields NaN without raising) and returns a list. -/
theorem recommend_input_validation (s : PosState) (d : DbState) (positions : List ℤ)
    (top_k : ℤ) (alpha w1 w2 : ℝ)
    (hav : s.available = true) (hdav : d.available = true)
    (hdpr : ∃ dprices, d.prices = some dprices) :
    ((∃ p ∈ positions, p < 0 ∨ (s.count : ℤ) ≤ p) →
      s.recommend positions top_k alpha w1 w2 = .error "positions out of range") ∧
    ((∃ p ∈ positions, p < 0 ∨ (d.nproducts : ℤ) ≤ p) →
      d.recommend positions top_k alpha w1 w2 = .error "positions out of range") ∧
    (s.recommend [] top_k alpha w1 w2).toOption.isSome = true ∧
    (d.recommend [] top_k alpha w1 w2).toOption.isSome = true := by
  obtain ⟨⟨embNorm, he⟩, ⟨prices, hpr⟩, hc⟩ := posAvailable_elim hav
  obtain ⟨⟨dEmbNorm, hde⟩, hdc⟩ := dbAvailable_elim hdav
  obtain ⟨dprices, hdp⟩ := hdpr
  refine ⟨?_, ?_, ?_, ?_⟩
  · intro hbad
    have hany : positions.any (fun p => p < 0 || (s.count : ℤ) ≤ p) = true := by
      rw [List.any_eq_true]
      obtain ⟨p, hp, hb⟩ := hbad
      exact ⟨p, hp, by simpa using hb⟩
    rw [PosState.recommend, he, hpr, hav]
    simp only [if_true]
    rw [hany]
    simp
  · intro hbad
    have hany : positions.any (fun p => p < 0 || (d.nproducts : ℤ) ≤ p) = true := by
      rw [List.any_eq_true]
      obtain ⟨p, hp, hb⟩ := hbad
      exact ⟨p, hp, by simpa using hb⟩
    rw [DbState.recommend, hde, hdp, hdav]
    simp only [if_true]
    rw [hany]
    simp
  · rw [posRecommend_eq_ok s he hpr hav [] top_k alpha w1 w2 (by simp)]
    simp [Except.toOption]
  · rw [dbRecommend_eq_ok d hde hdp hdav [] top_k alpha w1 w2 (by simp)]
    simp [Except.toOption]

theorem recommend_input_validation_witness :
    (loadIfAvailable [[(1:ℝ)]] [4]).available = true ∧
      (DbState.mk (some [[(1:ℝ)]]) (some [4]) 1 1).available = true ∧
      (∃ dprices, (DbState.mk (some [[(1:ℝ)]]) (some [4]) 1 1).prices = some dprices) ∧
      (((∃ p ∈ ([3] : List ℤ), p < 0 ∨ ((loadIfAvailable [[(1:ℝ)]] [4]).count : ℤ) ≤ p) →
          (loadIfAvailable [[(1:ℝ)]] [4]).recommend [3] 5 1 1 0 =
            .error "positions out of range") ∧
        ((∃ p ∈ ([3] : List ℤ), p < 0 ∨
            ((DbState.mk (some [[(1:ℝ)]]) (some [4]) 1 1).nproducts : ℤ) ≤ p) →
          (DbState.mk (some [[(1:ℝ)]]) (some [4]) 1 1).recommend [3] 5 1 1 0 =
            .error "positions out of range") ∧
        ((loadIfAvailable [[(1:ℝ)]] [4]).recommend [] 5 1 1 0).toOption.isSome = true ∧
        ((DbState.mk (some [[(1:ℝ)]]) (some [4]) 1 1).recommend []
            5 1 1 0).toOption.isSome = true) := by
  have h1 : (loadIfAvailable [[(1:ℝ)]] [4]).available = true := by
    simp [loadIfAvailable, PosState.available]
  have h2 : (DbState.mk (some [[(1:ℝ)]]) (some [4]) 1 1).available = true := rfl
  have h3 : ∃ dprices, (DbState.mk (some [[(1:ℝ)]]) (some [4]) 1 1).prices =
      some dprices := ⟨_, rfl⟩
  exact ⟨h1, h2, h3, recommend_input_validation _ _ [3] 5 1 1 0 h1 h2 h3⟩

/-- C9 counterexample: an available recommender called with an EMPTY
seed-position list does not reject the request — it returns a result list
(numpy computes NaN scores from the empty mean rather than raising). -/
theorem recommend_empty_seed_accepted :
    ((loadIfAvailable [[(1:ℝ)]] [4]).recommend [] 5 1 1 0).toOption.isSome = true := by
  have he : (loadIfAvailable [[(1:ℝ)]] [4]).embNorm =
      some ([[(1:ℝ)]].map normalizeVec) := by
    simp [loadIfAvailable]
  have hpr : (loadIfAvailable [[(1:ℝ)]] [4]).prices =
      some (([4] : List ℤ).map (fun p => (p : ℝ))) := by
    simp [loadIfAvailable]
  have hav : (loadIfAvailable [[(1:ℝ)]] [4]).available = true := by
    simp [loadIfAvailable, PosState.available]
  rw [posRecommend_eq_ok _ he hpr hav [] 5 1 1 0 (by simp)]
  simp [Except.toOption]

/-! ## Claim C2: which price anchor does each recommender use? -/

/-- Price-score array following the spec's words for position-based
queries: "`queryPrice` is the mean price of the seed set". -/
noncomputable def specSeedPriceScores (prices : List ℝ) (pos : List ℕ) (alpha : ℝ) : List ℝ :=
  prices.map (fun p => priceScoreTerm alpha p (listMean (pos.map (fun i => prices.getD i 0))))

/-- Price-score array anchored at the mean price of the whole catalog —
what `_calculate_similarity_scores` computes for every query. -/
noncomputable def catalogAnchorPriceScores (prices : List ℝ) (alpha : ℝ) : List ℝ :=
  prices.map (fun p => priceScoreTerm alpha p (listMean prices))

theorem blend_zero_one (sim ps : List ℝ) (h : sim.length = ps.length) :
    blend 0 1 sim ps = ps := by
  rw [blend]
  induction sim generalizing ps with
  | nil =>
    cases ps with
    | nil => rfl
    | cons b m => simp at h
  | cons a l ih =>
    cases ps with
    | nil => simp at h
    | cons b m =>
      rw [List.zipWith_cons_cons]
      have hb : (0:ℝ) * a + 1 * b = b := by ring
      rw [hb, ih m (by simpa using h)]

/-- C2 (amended): with the weights isolating the price component
(`w1 = 0`, `w2 = 1`), `PosRecommender`'s position-based score array is the
seed-mean-anchored price-score array (as the spec states), but
`DbPosRecommender._calculate_similarity_scores` — the function its
position-based `recommend` also calls — produces the catalog-mean-anchored
array for every query, position-based queries included. -/
theorem price_anchor_of_each_recommender (embNorm : List (List ℝ)) (prices : List ℝ)
    (dim : ℕ) (pos : List ℕ) (alpha : ℝ) (d : DbState) (queryVec : List ℝ)
    {dEmbNorm : List (List ℝ)} {dprices : List ℝ}
    (hlen : embNorm.length = prices.length)
    (hde : d.embNorm = some dEmbNorm) (hdp : d.prices = some dprices)
    (hdlen : dEmbNorm.length = dprices.length) :
    posTotals embNorm prices dim pos alpha 0 1 = specSeedPriceScores prices pos alpha ∧
      calculateSimilarityScores d queryVec alpha 0 1 =
        catalogAnchorPriceScores dprices alpha := by
  constructor
  · rw [posTotals, specSeedPriceScores]
    apply blend_zero_one
    rw [List.length_map, List.length_map]
    exact hlen
  · rw [calculateSimilarityScores, hde, hdp]
    rw [catalogAnchorPriceScores]
    apply blend_zero_one
    rw [List.length_map, List.length_map]
    exact hdlen

theorem price_anchor_of_each_recommender_witness :
    ([[(1:ℝ)]] : List (List ℝ)).length = ([2] : List ℝ).length ∧
      (DbState.mk (some [[(1:ℝ)]]) (some [2]) 1 1).embNorm = some [[(1:ℝ)]] ∧
      (DbState.mk (some [[(1:ℝ)]]) (some [2]) 1 1).prices = some [2] ∧
      ([[(1:ℝ)]] : List (List ℝ)).length = ([2] : List ℝ).length ∧
      (posTotals [[(1:ℝ)]] [2] 1 [0] 1 0 1 = specSeedPriceScores [2] [0] 1 ∧
        calculateSimilarityScores (DbState.mk (some [[(1:ℝ)]]) (some [2]) 1 1) [1] 1 0 1 =
          catalogAnchorPriceScores [2] 1) :=
  ⟨rfl, rfl, rfl, rfl,
    price_anchor_of_each_recommender [[(1:ℝ)]] [2] 1 [0] 1
      (DbState.mk (some [[(1:ℝ)]]) (some [2]) 1 1) [1] rfl rfl rfl rfl⟩

/-- C2 counterexample: catalog prices `[0, 6]`, seed set `{0}`,
`alpha = 1`, `w1 = 0`, `w2 = 1`.  The DB recommender's position-based
score pipeline anchors the price term at the catalog mean `3`, so the
score of row `1` differs from the one mandated by the claim (anchor =
seed-set mean `0`). -/
theorem db_price_anchor_not_seed_mean :
    (calculateSimilarityScores (DbState.mk (some [[(1:ℝ)],[1]]) (some [0,6]) 2 1)
        [1] 1 0 1).getD 1 0 ≠
      (specSeedPriceScores [0,6] [0] 1).getD 1 0 := by
  have h1 : (calculateSimilarityScores (DbState.mk (some [[(1:ℝ)],[1]]) (some [0,6]) 2 1)
      [1] 1 0 1).getD 1 0 = priceScoreTerm 1 6 3 := by
    rw [calculateSimilarityScores]
    simp only [blend, listMean, dot, List.map, List.zipWith]
    norm_num
  have h2 : (specSeedPriceScores [0,6] [0] 1).getD 1 0 = priceScoreTerm 1 6 0 := by
    rw [specSeedPriceScores]
    simp only [listMean, List.map]
    norm_num
  rw [h1, h2, priceScoreTerm, priceScoreTerm]
  intro heq
  rw [Real.exp_eq_exp] at heq
  have e1 : (1:ℝ) + 6 = 7 := by norm_num
  have e2 : (1:ℝ) + 3 = 4 := by norm_num
  have e3 : (1:ℝ) + 0 = 1 := by norm_num
  rw [e1, e2, e3, Real.log_one] at heq
  have l47 : Real.log 4 < Real.log 7 := Real.log_lt_log (by norm_num) (by norm_num)
  have l4 : 0 < Real.log 4 := Real.log_pos (by norm_num)
  have l7 : 0 < Real.log 7 := Real.log_pos (by norm_num)
  have a1 : |Real.log 7 - Real.log 4| = Real.log 7 - Real.log 4 :=
    abs_of_nonneg (by linarith)
  have a2 : |Real.log 7 - 0| = Real.log 7 := by
    rw [sub_zero]
    exact abs_of_nonneg (by linarith)
  rw [a1, a2] at heq
  have : Real.log 4 = 0 := by linarith [neg_injective heq]
  linarith

/-! ## Route layer (`backend_py/app/routes/recommend_positions.py`)

The helpers below are embedded parametrically in the item type `α` and in
the functions `sig` (`_signature`, line 126), `key` (`_key`, line 69) and
`idOf` (`str(it.get("id"))`, line 379), whose own bodies URL-parse and
tokenise strings; scores compared by the route are modelled as rationals.
Every theorem below holds for arbitrary `sig`/`key`/`idOf`, hence for the
concrete ones of the source. -/

/-- First pass of `_diversify_pick` (lines 130-139): pick at most one item
per fresh diversity signature, in input order; `b` is the remaining budget
`k - len(out)` and the pass returns as soon as the budget is exhausted
(checked after each append, so a non-positive `k` still yields one item
from a non-empty pool). -/
def pass1 {α S : Type} [DecidableEq S] (sig : α → S) : ℕ → List S → List α → List α
  | _, _, [] => []
  | b, seen, it :: rest =>
    if sig it ∈ seen then pass1 sig b seen rest
    else if b ≤ 1 then [it]
    else it :: pass1 sig (b - 1) (sig it :: seen) rest

/-- Second pass of `_diversify_pick` (lines 140-148): fill the remaining
budget from the original order, skipping identity keys already taken. -/
def pass2 {α K : Type} [DecidableEq K] (key : α → K) : ℕ → List K → List α → List α
  | _, _, [] => []
  | b, seen, it :: rest =>
    if b = 0 then []
    else if key it ∈ seen then pass2 key b seen rest
    else it :: pass2 key (b - 1) (key it :: seen) rest

/-- `_diversify_pick(candidates, k)` (lines 129-149). -/
def diversifyPick {α S K : Type} [DecidableEq S] [DecidableEq K]
    (sig : α → S) (key : α → K) (cands : List α) (k : ℕ) : List α :=
  let out := pass1 sig k [] cands
  if k ≤ out.length then out
  else out ++ pass2 key (k - out.length) (out.map key) cands

/-- The route's stable descending sort by score,
`cat_pool.sort(key=lambda x: float(x.get("score", 0.0)), reverse=True)`
(line 346). -/
def sortScoreDesc {α : Type} (score : α → ℚ) (l : List α) : List α :=
  l.mergeSort (fun a b => decide (score b ≤ score a))

/-- Lookup in `ids_map`, the dict comprehension over `cat_pool` keyed by `str(it.get("id"))`
(line 379): a dict comprehension keeps the LAST item per id. -/
def lookupId {α I : Type} [DecidableEq I] (idOf : α → I) (pool : List α) (i : I) :
    Option α :=
  (pool.filter (fun it => decide (idOf it = i))).getLast?

/-- The loop of lines 383-388: append pool items not already in `ranked`
(python `in`, i.e. structural equality) until `final_k` is reached. -/
def fillLoopGo {α : Type} [DecidableEq α] (finalK : ℕ) : List α → List α → List α
  | ranked, [] => ranked
  | ranked, it :: rest =>
    let r := if it ∈ ranked then ranked else ranked ++ [it]
    if finalK ≤ r.length then r
    else fillLoopGo finalK r rest

/-- Lines 383-388 with their guard `if len(ranked) < final_k`. -/
def fillLoop {α : Type} [DecidableEq α] (ranked pool : List α) (finalK : ℕ) : List α :=
  if ranked.length < finalK then fillLoopGo finalK ranked pool else ranked

/-- The LLM-rerank merge branch for one category (lines 376-389):
`gateway` is `picked.get(cat)` (`none` covers both a failed/empty gateway
result and a missing category, `or []` turns it into the empty id list);
the ranked ids are resolved through the id map, topped up from the pool
and diversified. -/
def llmBranch {α S K I : Type} [DecidableEq α] [DecidableEq S] [DecidableEq K]
    [DecidableEq I] (sig : α → S) (key : α → K) (idOf : α → I)
    (gateway : Option (List I)) (catPool : List α) (finalK : ℕ) : List α :=
  let orderIds := gateway.getD []
  let ranked := orderIds.filterMap (lookupId idOf catPool)
  let ranked2 := fillLoop ranked catPool finalK
  diversifyPick sig key ranked2 finalK

/-- Inner loop of the first global-dedup pass (lines 398-407): walk the
category's picks, skip identity keys already seen, stop when the bucket
reaches `final_k`.  Returns the grown bucket and the grown seen set. -/
def dedupFill {α K : Type} [DecidableEq K] (key : α → K) (finalK : ℕ) :
    List α → List K → List α → List α × List K
  | bucket, seen, [] => (bucket, seen)
  | bucket, seen, it :: rest =>
    if key it ∈ seen then dedupFill key finalK bucket seen rest
    else
      if finalK ≤ (bucket ++ [it]).length then (bucket ++ [it], key it :: seen)
      else dedupFill key finalK (bucket ++ [it]) (key it :: seen) rest

/-- Inner loop of the second (top-up) pass (lines 409-420): refill a
short bucket from the category's own pool, with the length guard at the
top of each iteration. -/
def topUpFill {α K : Type} [DecidableEq K] (key : α → K) (finalK : ℕ) :
    List α → List K → List α → List α × List K
  | bucket, seen, [] => (bucket, seen)
  | bucket, seen, it :: rest =>
    if finalK ≤ bucket.length then (bucket, seen)
    else if key it ∈ seen then topUpFill key finalK bucket seen rest
    else topUpFill key finalK (bucket ++ [it]) (key it :: seen) rest

/-- Fold of either pass over the target categories, threading
`final_by_cat` (as a function) and the global `seen_ids`. -/
def allocFold {α K C : Type} [DecidableEq C]
    (inner : List α → List K → List α → List α × List K)
    (src : C → List α) : List C → (C → List α) → List K → ((C → List α) × List K)
  | [], fbc, seen => (fbc, seen)
  | cat :: rest, fbc, seen =>
    let r := inner (fbc cat) seen (src cat)
    allocFold inner src rest (Function.update fbc cat r.1) r.2

/-- Global cross-category dedup with top-up and final flatten (lines
394-433): first pass over `cat_pick_map`, second pass over
`cat_pool_map`, then `final_items` is the concatenation of the buckets in
category order. -/
def recommendFinal {α K C : Type} [DecidableEq C] [DecidableEq K] (key : α → K)
    (finalK : ℕ) (cats : List C) (picks pools : C → List α) : List α :=
  let r1 := allocFold (dedupFill key finalK) picks cats (fun _ => []) []
  let r2 := allocFold (topUpFill key finalK) pools cats r1.1 r1.2
  (cats.map r2.1).flatten

/-! ## Lemmas about `_diversify_pick` -/

theorem card_insert_erase {γ : Type} [DecidableEq γ] (x : γ) (s : Finset γ) :
    (insert x s).card = (s.erase x).card + 1 := by
  by_cases h : x ∈ s
  · rw [Finset.card_insert_of_mem h, Finset.card_erase_of_mem h]
    have := Finset.card_pos.mpr ⟨x, h⟩
    omega
  · rw [Finset.card_insert_of_not_mem h, Finset.erase_eq_of_not_mem h]

theorem pass1_length_le {α S : Type} [DecidableEq S] (sig : α → S) :
    ∀ (l : List α) (b : ℕ) (seen : List S), 1 ≤ b → (pass1 sig b seen l).length ≤ b := by
  intro l
  induction l with
  | nil => intro b seen _; simp [pass1]
  | cons it rest ih =>
    intro b seen hb
    rw [pass1]
    by_cases hmem : sig it ∈ seen
    · rw [if_pos hmem]; exact ih b seen hb
    · rw [if_neg hmem]
      by_cases hb1 : b ≤ 1
      · rw [if_pos hb1]; simpa using hb
      · rw [if_neg hb1]
        have := ih (b - 1) (sig it :: seen) (by omega)
        simp only [List.length_cons]
        omega

theorem pass1_sig_not_seen {α S : Type} [DecidableEq S] (sig : α → S) :
    ∀ (l : List α) (b : ℕ) (seen : List S), ∀ x ∈ pass1 sig b seen l, sig x ∉ seen := by
  intro l
  induction l with
  | nil => intro b seen x hx; simp [pass1] at hx
  | cons it rest ih =>
    intro b seen x hx
    rw [pass1] at hx
    by_cases hmem : sig it ∈ seen
    · rw [if_pos hmem] at hx; exact ih b seen x hx
    · rw [if_neg hmem] at hx
      by_cases hb1 : b ≤ 1
      · rw [if_pos hb1] at hx
        simp only [List.mem_singleton] at hx
        subst hx; exact hmem
      · rw [if_neg hb1] at hx
        rcases List.mem_cons.mp hx with rfl | hx'
        · exact hmem
        · have := ih (b - 1) (sig it :: seen) x hx'
          intro hc; exact this (List.mem_cons_of_mem _ hc)

theorem pass1_pairwise {α S : Type} [DecidableEq S] (sig : α → S) :
    ∀ (l : List α) (b : ℕ) (seen : List S),
      (pass1 sig b seen l).Pairwise (fun a c => sig a ≠ sig c) := by
  intro l
  induction l with
  | nil => intro b seen; simp [pass1]
  | cons it rest ih =>
    intro b seen
    rw [pass1]
    by_cases hmem : sig it ∈ seen
    · rw [if_pos hmem]; exact ih b seen
    · rw [if_neg hmem]
      by_cases hb1 : b ≤ 1
      · rw [if_pos hb1]; simp
      · rw [if_neg hb1]
        rw [List.pairwise_cons]
        refine ⟨?_, ih (b - 1) (sig it :: seen)⟩
        intro x hx
        have := pass1_sig_not_seen sig rest (b - 1) (sig it :: seen) x hx
        intro hc
        exact this (by rw [← hc]; exact List.mem_cons_self _ _)

theorem pass1_length_eq {α S : Type} [DecidableEq S] (sig : α → S) :
    ∀ (l : List α) (b : ℕ) (seen : List S), 1 ≤ b →
      (pass1 sig b seen l).length =
        min b (((l.map sig).toFinset \ seen.toFinset).card) := by
  intro l
  induction l with
  | nil => intro b seen hb; simp [pass1]
  | cons it rest ih =>
    intro b seen hb
    rw [pass1, List.map_cons, List.toFinset_cons]
    by_cases hmem : sig it ∈ seen
    · rw [if_pos hmem,
        Finset.insert_sdiff_of_mem _ (List.mem_toFinset.mpr hmem)]
      exact ih b seen hb
    · rw [if_neg hmem,
        Finset.insert_sdiff_of_not_mem _ (fun hc => hmem (List.mem_toFinset.mp hc))]
      have hcard : (insert (sig it) ((rest.map sig).toFinset \ seen.toFinset)).card =
          (((rest.map sig).toFinset \ seen.toFinset).erase (sig it)).card + 1 :=
        card_insert_erase _ _
      by_cases hb1 : b ≤ 1
      · rw [if_pos hb1]
        have hb' : b = 1 := by omega
        subst hb'
        rw [hcard]
        simp
      · rw [if_neg hb1]
        have hrec := ih (b - 1) (sig it :: seen) (by omega)
        rw [List.toFinset_cons, Finset.sdiff_insert] at hrec
        simp only [List.length_cons, hrec, hcard]
        omega

theorem pass2_length_le {α K : Type} [DecidableEq K] (key : α → K) :
    ∀ (l : List α) (b : ℕ) (seen : List K), (pass2 key b seen l).length ≤ b := by
  intro l
  induction l with
  | nil => intro b seen; simp [pass2]
  | cons it rest ih =>
    intro b seen
    rw [pass2]
    by_cases hb0 : b = 0
    · rw [if_pos hb0]; simp
    · rw [if_neg hb0]
      by_cases hmem : key it ∈ seen
      · rw [if_pos hmem]; exact ih b seen
      · rw [if_neg hmem]
        have := ih (b - 1) (key it :: seen)
        simp only [List.length_cons]
        omega

theorem pass2_exhaust {α K : Type} [DecidableEq K] (key : α → K) :
    ∀ (l : List α) (b : ℕ) (seen : List K),
      (pass2 key b seen l).length < b →
      ∀ it ∈ l, key it ∈ seen ∨ key it ∈ (pass2 key b seen l).map key := by
  intro l
  induction l with
  | nil => intro b seen _ it hit; simp at hit
  | cons x rest ih =>
    intro b seen hlen it hit
    rw [pass2] at hlen ⊢
    by_cases hb0 : b = 0
    · rw [if_pos hb0] at hlen; simp [hb0] at hlen
    · rw [if_neg hb0] at hlen ⊢
      by_cases hmem : key x ∈ seen
      · rw [if_pos hmem] at hlen ⊢
        rcases List.mem_cons.mp hit with rfl | hit'
        · exact Or.inl hmem
        · exact ih b seen hlen it hit'
      · rw [if_neg hmem] at hlen ⊢
        rcases List.mem_cons.mp hit with rfl | hit'
        · right; simp
        · have hlen' : (pass2 key (b - 1) (key x :: seen) rest).length < b - 1 := by
            simp only [List.length_cons] at hlen
            omega
          rcases ih (b - 1) (key x :: seen) hlen' it hit' with hseen | hout
          · rcases List.mem_cons.mp hseen with heq | hseen'
            · right; rw [List.map_cons, heq]; simp
            · exact Or.inl hseen'
          · right; rw [List.map_cons]; exact List.mem_cons_of_mem _ hout

/-- C3 (amended): `diversifyPick(pool, k)` (for `k ≥ 1`) returns at most
`k` items, at least `min(k, distinct-identity-count)` items — never fewer
than the pool can support — and its first `min(k, distinct-signatures)`
items have pairwise-distinct diversity signatures.  It does NOT always
return exactly `min(k, |pool|)` items, nor exactly
`min(k, distinct-identity-count)` — see the counterexample. -/
theorem diversifyPick_counts {α S K : Type} [DecidableEq S] [DecidableEq K]
    (sig : α → S) (key : α → K) (cands : List α) (k : ℕ) (hk : 1 ≤ k) :
    (diversifyPick sig key cands k).length ≤ k ∧
      min k (cands.map key).toFinset.card ≤ (diversifyPick sig key cands k).length ∧
      ((diversifyPick sig key cands k).take
          (min k (cands.map sig).toFinset.card)).Pairwise (fun a c => sig a ≠ sig c) := by
  have hp1 := pass1_length_eq sig cands k [] hk
  simp only [List.toFinset_nil, Finset.sdiff_empty] at hp1
  rw [diversifyPick]
  by_cases hcase : k ≤ (pass1 sig k [] cands).length
  · rw [if_pos hcase]
    have hle := pass1_length_le sig cands k [] hk
    have hlen : (pass1 sig k [] cands).length = k := le_antisymm hle hcase
    refine ⟨le_of_eq hlen, ?_, ?_⟩
    · rw [hlen]; exact min_le_left _ _
    · rw [← hp1, List.take_length]
      exact pass1_pairwise sig cands k []
  · rw [if_neg hcase]
    push_neg at hcase
    have hp2le := pass2_length_le key cands (k - (pass1 sig k [] cands).length)
      ((pass1 sig k [] cands).map key)
    refine ⟨?_, ?_, ?_⟩
    · rw [List.length_append]; omega
    · by_cases hfull : (pass2 key (k - (pass1 sig k [] cands).length)
          ((pass1 sig k [] cands).map key) cands).length =
          k - (pass1 sig k [] cands).length
      · rw [List.length_append, hfull]
        have heq : (pass1 sig k [] cands).length +
            (k - (pass1 sig k [] cands).length) = k := by omega
        rw [heq]
        exact min_le_left _ _
      · have hex := pass2_exhaust key cands (k - (pass1 sig k [] cands).length)
          ((pass1 sig k [] cands).map key) (by omega)
        have hsub : (cands.map key).toFinset ⊆
            (((pass1 sig k [] cands) ++ (pass2 key (k - (pass1 sig k [] cands).length)
              ((pass1 sig k [] cands).map key) cands)).map key).toFinset := by
          intro kk hkk
          rw [List.mem_toFinset, List.mem_map] at hkk
          obtain ⟨x, hx, rfl⟩ := hkk
          rw [List.mem_toFinset, List.map_append, List.mem_append]
          exact hex x hx
        have hcard := Finset.card_le_card hsub
        have hle2 := List.toFinset_card_le
          (((pass1 sig k [] cands) ++ (pass2 key (k - (pass1 sig k [] cands).length)
            ((pass1 sig k [] cands).map key) cands)).map key)
        rw [List.length_map] at hle2
        exact le_trans (min_le_right _ _) (le_trans hcard hle2)
    · have hmin : min k (cands.map sig).toFinset.card = (pass1 sig k [] cands).length :=
        hp1.symm
      rw [hmin, List.take_left]
      exact pass1_pairwise sig cands k []

theorem diversifyPick_counts_witness :
    (1 : ℕ) ≤ 2 ∧
      ((diversifyPick (fun n : ℕ => n % 3) (fun n : ℕ => n) [0, 3, 1] 2).length ≤ 2 ∧
        min 2 (([0, 3, 1].map (fun n : ℕ => n)).toFinset.card) ≤
          (diversifyPick (fun n : ℕ => n % 3) (fun n : ℕ => n) [0, 3, 1] 2).length ∧
        ((diversifyPick (fun n : ℕ => n % 3) (fun n : ℕ => n) [0, 3, 1] 2).take
            (min 2 (([0, 3, 1].map (fun n : ℕ => n % 3)).toFinset.card))).Pairwise
          (fun a c => a % 3 ≠ c % 3)) :=
  ⟨by norm_num, diversifyPick_counts (fun n : ℕ => n % 3) (fun n : ℕ => n) [0, 3, 1] 2
    (by norm_num)⟩

/-- C3 counterexample.  Part 1: a pool of two identical items (same
signature, same identity key) with `k = 2` yields only 1 item, not
`min(k, |pool|) = 2`.  Part 2: a pool of two items sharing the identity
key but with different signatures yields 2 items even though the pool
contains duplicate identity keys and `min(k, distinct-identity-count) = 1`. -/
theorem diversifyPick_counts_fail :
    ((diversifyPick (fun n : ℕ => n) (fun n : ℕ => n) [7, 7] 2).length = 1 ∧
      min 2 ([7, 7] : List ℕ).length = 2) ∧
    ((diversifyPick (fun pr : ℕ × ℕ => pr.2) (fun pr : ℕ × ℕ => pr.1)
        [(1, 1), (1, 2)] 2).length = 2 ∧
      ¬ (([(1, 1), (1, 2)].map (fun pr : ℕ × ℕ => pr.1)).Nodup) ∧
      min 2 (([(1, 1), (1, 2)].map (fun pr : ℕ × ℕ => pr.1)).toFinset.card) = 1) := by
  decide

/-! ## Lemmas about the global cross-category dedup -/

theorem dedupFill_spec {α K : Type} [DecidableEq K] (key : α → K) (finalK : ℕ) :
    ∀ (l bucket : List α) (seen : List K),
      ∃ new : List α,
        (dedupFill key finalK bucket seen l).1 = bucket ++ new ∧
        (∀ x ∈ new, x ∈ l) ∧
        (new.map key).Nodup ∧
        (∀ x ∈ new, key x ∉ seen) ∧
        (∀ kk, kk ∈ (dedupFill key finalK bucket seen l).2 ↔
          kk ∈ seen ∨ kk ∈ new.map key) := by
  intro l
  induction l with
  | nil =>
    intro bucket seen
    exact ⟨[], by simp [dedupFill], by simp, by simp, by simp, by simp [dedupFill]⟩
  | cons it rest ih =>
    intro bucket seen
    rw [dedupFill]
    by_cases hmem : key it ∈ seen
    · rw [if_pos hmem]
      obtain ⟨new, h1, h2, h3, h4, h5⟩ := ih bucket seen
      exact ⟨new, h1, fun x hx => List.mem_cons_of_mem _ (h2 x hx), h3, h4, h5⟩
    · rw [if_neg hmem]
      by_cases hfull : finalK ≤ (bucket ++ [it]).length
      · rw [if_pos hfull]
        refine ⟨[it], rfl, ?_, by simp, ?_, ?_⟩
        · intro x hx; rw [List.mem_singleton] at hx; subst hx; simp
        · intro x hx; rw [List.mem_singleton] at hx; subst hx; exact hmem
        · intro kk
          simp only [List.map_cons, List.map_nil, List.mem_cons, List.mem_singleton,
            List.not_mem_nil, or_false]
          tauto
      · rw [if_neg hfull]
        obtain ⟨new, h1, h2, h3, h4, h5⟩ := ih (bucket ++ [it]) (key it :: seen)
        refine ⟨it :: new, ?_, ?_, ?_, ?_, ?_⟩
        · rw [h1, List.append_assoc]; rfl
        · intro x hx
          rcases List.mem_cons.mp hx with rfl | hx'
          · simp
          · exact List.mem_cons_of_mem _ (h2 x hx')
        · rw [List.map_cons, List.nodup_cons]
          refine ⟨?_, h3⟩
          intro hc
          rw [List.mem_map] at hc
          obtain ⟨x, hx, hkx⟩ := hc
          exact h4 x hx (by rw [hkx]; exact List.mem_cons_self _ _)
        · intro x hx
          rcases List.mem_cons.mp hx with rfl | hx'
          · exact hmem
          · intro hc; exact h4 x hx' (List.mem_cons_of_mem _ hc)
        · intro kk
          rw [h5 kk]
          simp only [List.mem_cons, List.map_cons]
          tauto

theorem topUpFill_spec {α K : Type} [DecidableEq K] (key : α → K) (finalK : ℕ) :
    ∀ (l bucket : List α) (seen : List K),
      ∃ new : List α,
        (topUpFill key finalK bucket seen l).1 = bucket ++ new ∧
        (∀ x ∈ new, x ∈ l) ∧
        (new.map key).Nodup ∧
        (∀ x ∈ new, key x ∉ seen) ∧
        (∀ kk, kk ∈ (topUpFill key finalK bucket seen l).2 ↔
          kk ∈ seen ∨ kk ∈ new.map key) := by
  intro l
  induction l with
  | nil =>
    intro bucket seen
    exact ⟨[], by simp [topUpFill], by simp, by simp, by simp, by simp [topUpFill]⟩
  | cons it rest ih =>
    intro bucket seen
    rw [topUpFill]
    by_cases hcap : finalK ≤ bucket.length
    · rw [if_pos hcap]
      exact ⟨[], by simp, by simp, by simp, by simp, by simp⟩
    · rw [if_neg hcap]
      by_cases hmem : key it ∈ seen
      · rw [if_pos hmem]
        obtain ⟨new, h1, h2, h3, h4, h5⟩ := ih bucket seen
        exact ⟨new, h1, fun x hx => List.mem_cons_of_mem _ (h2 x hx), h3, h4, h5⟩
      · rw [if_neg hmem]
        obtain ⟨new, h1, h2, h3, h4, h5⟩ := ih (bucket ++ [it]) (key it :: seen)
        refine ⟨it :: new, ?_, ?_, ?_, ?_, ?_⟩
        · rw [h1, List.append_assoc]; rfl
        · intro x hx
          rcases List.mem_cons.mp hx with rfl | hx'
          · simp
          · exact List.mem_cons_of_mem _ (h2 x hx')
        · rw [List.map_cons, List.nodup_cons]
          refine ⟨?_, h3⟩
          intro hc
          rw [List.mem_map] at hc
          obtain ⟨x, hx, hkx⟩ := hc
          exact h4 x hx (by rw [hkx]; exact List.mem_cons_self _ _)
        · intro x hx
          rcases List.mem_cons.mp hx with rfl | hx'
          · exact hmem
          · intro hc; exact h4 x hx' (List.mem_cons_of_mem _ hc)
        · intro kk
          rw [h5 kk]
          simp only [List.mem_cons, List.map_cons]
          tauto

theorem join_map_update {α C : Type} [DecidableEq C] :
    ∀ (cats : List C), cats.Nodup → ∀ (cat : C), cat ∈ cats →
      ∀ (fbc : C → List α) (b : List α),
      ∃ pre post, (cats.map fbc).flatten = pre ++ (fbc cat ++ post) ∧
        (cats.map (Function.update fbc cat b)).flatten = pre ++ (b ++ post) := by
  intro cats
  induction cats with
  | nil => intro _ cat hc; exact absurd hc (List.not_mem_nil cat)
  | cons c rest ih =>
    intro hnd cat hc fbc b
    rw [List.map_cons, List.flatten_cons, List.map_cons, List.flatten_cons]
    rcases List.mem_cons.mp hc with rfl | hc'
    · refine ⟨[], (rest.map fbc).flatten, by simp, ?_⟩
      have hrest : rest.map (Function.update fbc cat b) = rest.map fbc := by
        apply List.map_congr_left
        intro c' hc''
        have hne : c' ≠ cat := by
          intro hcc; subst hcc; exact (List.nodup_cons.mp hnd).1 hc''
        exact Function.update_noteq hne b fbc
      rw [Function.update_same, hrest]
      simp
    · have hnd' := (List.nodup_cons.mp hnd).2
      have hne : c ≠ cat := by
        intro hcc; subst hcc; exact (List.nodup_cons.mp hnd).1 hc'
      obtain ⟨pre, post, h1, h2⟩ := ih hnd' cat hc' fbc b
      refine ⟨fbc c ++ pre, post, ?_, ?_⟩
      · rw [h1, List.append_assoc]
      · rw [Function.update_noteq hne, h2, List.append_assoc]

theorem allocFold_spec {α K C : Type} [DecidableEq C] (key : α → K)
    (inner : List α → List K → List α → List α × List K)
    (hinner : ∀ (l bucket : List α) (seen : List K), ∃ new : List α,
        (inner bucket seen l).1 = bucket ++ new ∧ (∀ x ∈ new, x ∈ l) ∧
        (new.map key).Nodup ∧ (∀ x ∈ new, key x ∉ seen) ∧
        (∀ kk, kk ∈ (inner bucket seen l).2 ↔ kk ∈ seen ∨ kk ∈ new.map key))
    (src : C → List α) (cats0 : List C) (hnd0 : cats0.Nodup) :
    ∀ (todo : List C) (fbc : C → List α) (seen : List K),
      todo.Sublist cats0 →
      ((cats0.map fbc).flatten.map key).Nodup →
      (∀ kk ∈ (cats0.map fbc).flatten.map key, kk ∈ seen) →
      ((cats0.map (allocFold inner src todo fbc seen).1).flatten.map key).Nodup ∧
      (∀ kk ∈ (cats0.map (allocFold inner src todo fbc seen).1).flatten.map key,
          kk ∈ (allocFold inner src todo fbc seen).2) ∧
      (∀ c ∈ cats0, ∀ x ∈ (allocFold inner src todo fbc seen).1 c,
          x ∈ fbc c ∨ x ∈ src c) := by
  intro todo
  induction todo with
  | nil =>
    intro fbc seen _ hnodup hcov
    exact ⟨hnodup, hcov, fun c _ x hx => Or.inl hx⟩
  | cons cat rest ih =>
    intro fbc seen htodo hnodup hcov
    have hcat : cat ∈ cats0 := htodo.subset (List.mem_cons_self cat rest)
    have htodo' : rest.Sublist cats0 := (List.sublist_cons_self cat rest).trans htodo
    obtain ⟨new, h1, h2, h3, h4, h5⟩ := hinner (src cat) (fbc cat) seen
    obtain ⟨pre, post, hJ, hJ'⟩ :=
      join_map_update cats0 hnd0 cat hcat fbc (fbc cat ++ new)
    have hperm : List.Perm (pre ++ ((fbc cat ++ new) ++ post))
        (pre ++ ((fbc cat ++ post) ++ new)) := by
      refine List.Perm.append_left pre ?_
      rw [List.append_assoc, List.append_assoc]
      exact List.Perm.append_left _ List.perm_append_comm
    have hpermk := hperm.map key
    have horigkeys : (pre ++ (fbc cat ++ post)).map key =
        (cats0.map fbc).flatten.map key := by rw [hJ]
    have hnodup' : ((cats0.map (Function.update fbc cat (fbc cat ++ new))).flatten.map
        key).Nodup := by
      rw [hJ']
      rw [hpermk.nodup_iff]
      rw [← List.append_assoc, List.map_append, List.nodup_append]
      refine ⟨by rw [horigkeys]; exact hnodup, h3, ?_⟩
      intro kk hkk hkk'
      have hseen : kk ∈ seen := hcov kk (by rw [← horigkeys]; exact hkk)
      rw [List.mem_map] at hkk'
      obtain ⟨x, hx, rfl⟩ := hkk'
      exact h4 x hx hseen
    have hcov' : ∀ kk ∈ (cats0.map (Function.update fbc cat (fbc cat ++ new))).flatten.map
        key, kk ∈ (inner (fbc cat) seen (src cat)).2 := by
      intro kk hkk
      rw [hJ'] at hkk
      have := hpermk.mem_iff.mp hkk
      rw [← List.append_assoc, List.map_append, List.mem_append] at this
      rcases this with h | h
      · exact (h5 kk).mpr (Or.inl (hcov kk (by rw [← horigkeys]; exact h)))
      · exact (h5 kk).mpr (Or.inr h)
    have hstep : allocFold inner src (cat :: rest) fbc seen =
        allocFold inner src rest
          (Function.update fbc cat (inner (fbc cat) seen (src cat)).1)
          (inner (fbc cat) seen (src cat)).2 := rfl
    rw [hstep, h1]
    obtain ⟨ih1, ih2, ih3⟩ := ih (Function.update fbc cat (fbc cat ++ new))
      (inner (fbc cat) seen (src cat)).2 htodo' hnodup' hcov'
    refine ⟨ih1, ih2, ?_⟩
    intro c hc x hx
    rcases ih3 c hc x hx with hleft | hright
    · by_cases hcc : c = cat
      · subst hcc
        rw [Function.update_same] at hleft
        rw [List.mem_append] at hleft
        rcases hleft with h | h
        · exact Or.inl h
        · exact Or.inr (h2 x h)
      · rw [Function.update_noteq hcc] at hleft
        exact Or.inl hleft
    · exact Or.inr hright

/-- C4 (amended): for every request whose target-category list is
duplicate-free, no two items in the combined multi-category output share
an identity key, and every returned item comes from its own category's
picks or pool (the top-up pass refills only from the category's own
pool).  With a duplicated category in the request the flatten emits the
same bucket twice — see the counterexample. -/
theorem recommendFinal_dedup {α K C : Type} [DecidableEq C] [DecidableEq K]
    (key : α → K) (finalK : ℕ) (cats : List C) (picks pools : C → List α)
    (hnd : cats.Nodup) :
    ((recommendFinal key finalK cats picks pools).map key).Nodup ∧
      ∀ x ∈ recommendFinal key finalK cats picks pools,
        ∃ c ∈ cats, x ∈ picks c ∨ x ∈ pools c := by
  have hflat : (cats.map (fun _ : C => ([] : List α))).flatten = [] := by
    induction cats with
    | nil => rfl
    | cons c rest ihc => simpa using ihc
  have h1 := allocFold_spec key (dedupFill key finalK) (dedupFill_spec key finalK)
    picks cats hnd cats (fun _ => []) [] (List.Sublist.refl cats)
    (by rw [hflat]; simp) (by rw [hflat]; simp)
  have h2 := allocFold_spec key (topUpFill key finalK) (topUpFill_spec key finalK)
    pools cats hnd cats
    (allocFold (dedupFill key finalK) picks cats (fun _ => []) []).1
    (allocFold (dedupFill key finalK) picks cats (fun _ => []) []).2
    (List.Sublist.refl cats) h1.1 h1.2.1
  have hr : recommendFinal key finalK cats picks pools =
      (cats.map (allocFold (topUpFill key finalK) pools cats
        (allocFold (dedupFill key finalK) picks cats (fun _ => []) []).1
        (allocFold (dedupFill key finalK) picks cats (fun _ => []) []).2).1).flatten := rfl
  rw [hr]
  refine ⟨h2.1, ?_⟩
  intro x hx
  rw [List.mem_flatten] at hx
  obtain ⟨l, hl, hxl⟩ := hx
  rw [List.mem_map] at hl
  obtain ⟨c, hc, rfl⟩ := hl
  refine ⟨c, hc, ?_⟩
  rcases h2.2.2 c hc x hxl with hup | hpool
  · rcases h1.2.2 c hc x hup with hinit | hpick
    · exact absurd hinit (List.not_mem_nil x)
    · exact Or.inl hpick
  · exact Or.inr hpool

theorem recommendFinal_dedup_witness :
    ([0, 1] : List ℕ).Nodup ∧
      (((recommendFinal (fun n : ℕ => n) 2 [0, 1]
          (fun c => if c = 0 then [1, 2] else [2, 3]) (fun _ => [])).map
            (fun n : ℕ => n)).Nodup ∧
        ∀ x ∈ recommendFinal (fun n : ℕ => n) 2 [0, 1]
            (fun c => if c = 0 then [1, 2] else [2, 3]) (fun _ => []),
          ∃ c ∈ ([0, 1] : List ℕ),
            x ∈ (if c = 0 then [1, 2] else [2, 3] : List ℕ) ∨ x ∈ ([] : List ℕ)) :=
  ⟨by decide, recommendFinal_dedup (fun n : ℕ => n) 2 [0, 1]
    (fun c => if c = 0 then [1, 2] else [2, 3]) (fun _ => []) (by decide)⟩

/-- C4 counterexample: a request whose target-category list repeats a
category (`categories = [top, top]` is accepted verbatim by the route)
flattens the same bucket twice, so the combined output contains the same
identity key twice. -/
theorem recommendFinal_dup_cats_fail :
    recommendFinal (fun n : ℕ => n) 1 [0, 0] (fun _ => [5]) (fun _ => []) = [5, 5] ∧
      ¬ ((recommendFinal (fun n : ℕ => n) 1 [0, 0] (fun _ => [5]) (fun _ => [])).map
          (fun n : ℕ => n)).Nodup := by
  constructor
  · rfl
  · decide

/-! ## Lemmas about the rerank merge fallback -/

theorem fillLoopGo_eq_take {α : Type} [DecidableEq α] (finalK : ℕ) :
    ∀ (pool ranked : List α), pool.Nodup → (∀ x ∈ pool, x ∉ ranked) →
      ranked.length < finalK →
      fillLoopGo finalK ranked pool = ranked ++ pool.take (finalK - ranked.length) := by
  intro pool
  induction pool with
  | nil => intro ranked _ _ _; simp [fillLoopGo]
  | cons it rest ih =>
    intro ranked hnd hnotin hlen
    have hit : it ∉ ranked := hnotin it (List.mem_cons_self _ _)
    rw [fillLoopGo]
    simp only [if_neg hit]
    by_cases hfin : finalK ≤ (ranked ++ [it]).length
    · rw [if_pos hfin]
      rw [List.length_append, List.length_singleton] at hfin
      have h1 : finalK - ranked.length = 1 := by omega
      rw [h1]
      rfl
    · rw [if_neg hfin]
      rw [List.length_append, List.length_singleton] at hfin
      have hrec := ih (ranked ++ [it]) (List.nodup_cons.mp hnd).2
        (by
          intro x hx
          rw [List.mem_append, List.mem_singleton]
          rintro (hc | rfl)
          · exact hnotin x (List.mem_cons_of_mem _ hx) hc
          · exact (List.nodup_cons.mp hnd).1 hx)
        (by rw [List.length_append, List.length_singleton]; omega)
      rw [hrec, List.length_append, List.length_singleton]
      have h2 : finalK - ranked.length = (finalK - (ranked.length + 1)) + 1 := by omega
      rw [h2, List.take_succ_cons, List.append_assoc]
      rfl

theorem fillLoop_nil_eq_take {α : Type} [DecidableEq α] (pool : List α) (finalK : ℕ)
    (hnd : pool.Nodup) : fillLoop [] pool finalK = pool.take finalK := by
  rw [fillLoop]
  by_cases h : 0 < finalK
  · rw [if_pos (by simpa using h)]
    have := fillLoopGo_eq_take finalK pool [] hnd (by simp) (by simpa using h)
    simpa using this
  · have h0 : finalK = 0 := by omega
    subst h0
    rw [if_neg (by simp)]
    simp

/-- C6 (amended): when the rerank gateway returns `null` or an empty id
list for a category, the pre-diversification ranked list is the
pre-rerank similarity order truncated to `finalK`, and the final list for
the category is the DIVERSIFIED PICK of that truncation — which equals
the plain truncation only when the first `finalK` pool items already have
pairwise-distinct signatures, and differs from the non-reranking path
(which diversifies the full pool) in general. -/
theorem rerank_null_fallback {α S K I : Type} [DecidableEq α] [DecidableEq S]
    [DecidableEq K] [DecidableEq I] (sig : α → S) (key : α → K) (idOf : α → I)
    (gateway : Option (List I)) (catPool : List α) (finalK : ℕ)
    (hg : gateway = none ∨ gateway = some []) (hnd : catPool.Nodup) :
    llmBranch sig key idOf gateway catPool finalK =
      diversifyPick sig key (catPool.take finalK) finalK := by
  have hbase : llmBranch sig key idOf gateway catPool finalK =
      diversifyPick sig key (fillLoop [] catPool finalK) finalK := by
    rcases hg with rfl | rfl <;> rfl
  rw [hbase, fillLoop_nil_eq_take catPool finalK hnd]

theorem rerank_null_fallback_witness :
    ((none : Option (List ℕ)) = none ∨ (none : Option (List ℕ)) = some []) ∧
      ([0, 1, 2] : List ℕ).Nodup ∧
      llmBranch (fun n : ℕ => n / 2) (fun n : ℕ => n) (fun n : ℕ => n) none [0, 1, 2] 2 =
        diversifyPick (fun n : ℕ => n / 2) (fun n : ℕ => n) ([0, 1, 2].take 2) 2 :=
  ⟨Or.inl rfl, by decide,
    rerank_null_fallback (fun n : ℕ => n / 2) (fun n : ℕ => n) (fun n : ℕ => n) none
      [0, 1, 2] 2 (Or.inl rfl) (by decide)⟩

/-- C6 counterexample: pool `[0, 1, 2]` where items `0` and `1` share a
diversity signature, `finalK = 3`, gateway returning `null`: the final
list is `[0, 2, 1]`, not the truncated similarity order `[0, 1, 2]`. -/
theorem rerank_fallback_not_truncation :
    llmBranch (fun n : ℕ => n / 2) (fun n : ℕ => n) (fun n : ℕ => n) none [0, 1, 2] 3 ≠
      ([0, 1, 2] : List ℕ).take 3 := by
  decide

/-- C5 counterexample: a category pool `[0, 1, 2]` sorted descending by
score (`3, 2, 1`) where items `0` and `1` share a diversity signature:
the per-category final list produced by the route without reranking is
`[0, 2, 1]` with scores `3, 1, 2`, which is not sorted descending. -/
theorem category_list_not_sorted :
    ¬ (((diversifyPick (fun n : ℕ => n / 2) (fun n : ℕ => n)
        (sortScoreDesc (fun n : ℕ => ([3, 2, 1] : List ℚ).getD n 0) [0, 1, 2]) 3).map
          (fun n : ℕ => ([3, 2, 1] : List ℚ).getD n 0)).Pairwise (fun a b => b ≤ a)) := by
  have h1 : sortScoreDesc (fun n : ℕ => ([3, 2, 1] : List ℚ).getD n 0) [0, 1, 2] =
      [0, 1, 2] := by
    rw [sortScoreDesc]
    apply List.mergeSort_of_sorted
    decide
  have h2 : diversifyPick (fun n : ℕ => n / 2) (fun n : ℕ => n) [0, 1, 2] 3 =
      [0, 2, 1] := by decide
  rw [h1, h2]
  intro hp
  rw [List.map_cons, List.map_cons, List.map_cons, List.map_nil, List.pairwise_cons] at hp
  have := (List.pairwise_cons.mp hp.2).1 _ (List.mem_cons_self _ _)
  norm_num at this

end Lookbook
